import Mathlib

set_option maxRecDepth 8000

/-! Shallow embedding of the AI-ChatBot repository's streaming relay
(`server/server.js`) and client generation session (`src/ui/Chat.tsx`,
`src/clientCalls.tsx`), together with the meta-block filter
(`stripThinkBlocks`).  JavaScript strings are modelled as Lean
`String`/`List Char`.  Regex-based scanners from the source are written
with an explicit fuel argument (always instantiated with the input
length, which suffices because every step consumes at least one
character), so that they are structurally recursive and evaluate by
kernel reduction. -/

/-- Model of the JavaScript `\s` character class (whitespace as used by
`trim`, `replace(/\s+/g, ' ')`); ASCII whitespace plus NBSP and BOM. -/
def isJsWs (c : Char) : Bool :=
  c = ' ' || c = '\t' || c = '\n' || c = '\r' || c = '\x0b' || c = '\x0c' ||
  c = ' ' || c = '﻿'

/-- JS `String.prototype.trim`, right half. -/
def jsTrimRight (l : List Char) : List Char :=
  (l.reverse.dropWhile isJsWs).reverse

/-- JS `String.prototype.trim` on a character list. -/
def jsTrimList (l : List Char) : List Char :=
  jsTrimRight (l.dropWhile isJsWs)

/-- JS `String.prototype.trim` on a string. -/
def jsTrimS (s : String) : String :=
  String.mk (jsTrimList s.data)

/-- The remainder of the list after the first `'>'`: models how one match
of the regex `<[^>]*>` consumes from a `<` through the first following
`>`. -/
def dropThroughGt (l : List Char) : List Char :=
  (l.dropWhile (fun c => !(c = '>'))).drop 1

/-- `String(text).replace(/<[^>]*>/g, ' ')` from `sanitizeErrorText` in
`server/server.js`.  A `<` that has some later `>` starts a match that is
replaced by one space; a `<` with no later `>` matches nothing, and then
no later character can start a match either, so the rest is returned
unchanged. -/
def stripTagsF : Nat → List Char → List Char
  | 0, l => l
  | _ + 1, [] => []
  | f + 1, c :: rest =>
    if c = '<' then
      if rest.contains '>' then ' ' :: stripTagsF f (dropThroughGt rest)
      else c :: rest
    else c :: stripTagsF f rest

def stripTags (l : List Char) : List Char := stripTagsF l.length l

/-- `replace(/\s+/g, ' ')`: every maximal run of whitespace becomes a
single space. -/
def collapseWsF : Nat → List Char → List Char
  | 0, l => l
  | _ + 1, [] => []
  | f + 1, c :: rest =>
    if isJsWs c then ' ' :: collapseWsF f (rest.dropWhile isJsWs)
    else c :: collapseWsF f rest

def collapseWs (l : List Char) : List Char := collapseWsF l.length l

/-- `sanitizeErrorText` from `server/server.js`: falsy input (`null`,
`undefined`, `''` — modelled as `none` / `some ""`) yields the fixed
fallback; otherwise HTML tags are replaced by spaces, whitespace runs are
collapsed, and the result is trimmed and truncated to 200 characters. -/
def sanitizeErrorText (t : Option String) : String :=
  match t with
  | none => "Connection error occurred"
  | some s =>
    if s = "" then "Connection error occurred"
    else String.mk ((jsTrimList (collapseWs (stripTags s.data))).take 200)

/-- The SSE chunk event the relay writes for a chunk text
(`res.write('data: ' + text + '\n\n')` in `server/server.js`). -/
def sseData (text : String) : String := "data: " ++ text ++ "\n\n"

/-- The SSE error event the relay writes in its catch handler
(`res.write('data: [Error] ' + message + '\n\n')`). -/
def errorEvent (msg : String) : String := "data: [Error] " ++ msg ++ "\n\n"

/-- The sanitized message the relay emits when the backend answers a
non-success status: `server/server.js` throws
`new Error('Upstream ' + status + ' ' + statusText + ': ' + cleanError)`
with `cleanError = sanitizeErrorText(body)`, and the catch handler
sanitizes `error.message` again.  `statusLine` stands for the
`status + ' ' + statusText` part. -/
def upstreamErrorMessage (statusLine body : String) : String :=
  sanitizeErrorText (some ("Upstream " ++ statusLine ++ ": " ++ sanitizeErrorText (some body)))

/-- `noLtGtB l = true` iff no `'<'` in `l` is followed (anywhere later)
by a `'>'`; this is the strongest angle-bracket guarantee the tag
stripper actually provides. -/
def noLtGtB : List Char → Bool
  | [] => true
  | c :: l => if c = '<' then !(l.contains '>') else noLtGtB l

/-- JS `str.split('\n')` on a character list. -/
def splitNl : List Char → List (List Char)
  | [] => [[]]
  | c :: rest =>
    if c = '\n' then [] :: splitNl rest
    else
      match splitNl rest with
      | [] => [[c]]
      | h :: t => (c :: h) :: t

/-- Case-insensitive character comparison, modelling the regex `i` flag. -/
def lowerEq (a b : Char) : Bool := a.toLower = b.toLower

/-- Case-insensitive "pattern is a prefix of the list". -/
def startsWithCI : List Char → List Char → Bool
  | [], _ => true
  | _ :: _, [] => false
  | p :: ps, c :: l => lowerEq p c && startsWithCI ps l

def openThink : List Char := ['<', 't', 'h', 'i', 'n', 'k', '>']

def closeThink : List Char := ['<', '/', 't', 'h', 'i', 'n', 'k', '>']

/-- Finds the first case-insensitive occurrence of `</think>` and returns
the remainder after it (the lazy `[\s\S]*?<\/think>` part of the
meta-block regex); `none` if there is no occurrence. -/
def findCloseSplit : List Char → Option (List Char)
  | [] => none
  | c :: rest =>
    if startsWithCI closeThink (c :: rest) then some ((c :: rest).drop 8)
    else findCloseSplit rest

/-- One global pass of `text.replace(/<think>[\s\S]*?<\/think>/gi, '')`
from `stripThinkBlocks`: at a case-insensitive `<think>` with some later
`</think>`, the match up to the first `</think>` is removed and scanning
continues after it; a `<think>` with no later `</think>` matches nothing,
and then nothing later can match either, so the rest is returned
unchanged. -/
def stripThinkF : Nat → List Char → List Char
  | 0, l => l
  | _ + 1, [] => []
  | f + 1, c :: rest =>
    if startsWithCI openThink (c :: rest) then
      match findCloseSplit ((c :: rest).drop 7) with
      | some rem => stripThinkF f rem
      | none => c :: rest
    else c :: stripThinkF f rest

/-- Whether the meta-block regex has at least one match in `l` (mirrors
the scanning structure of `stripThinkF`). -/
def hasThinkF : Nat → List Char → Bool
  | 0, _ => false
  | _ + 1, [] => false
  | f + 1, c :: rest =>
    if startsWithCI openThink (c :: rest) then
      (findCloseSplit ((c :: rest).drop 7)).isSome
    else hasThinkF f rest

def hasThinkL (l : List Char) : Bool := hasThinkF l.length l

/-- `stripThinkBlocks` from `src/ui/Chat.tsx` /
`client/utils/textActions.ts`:
`text.replace(/<think>[\s\S]*?<\/think>/gi, '').trim()`. -/
def stripThinkBlocks (s : String) : String :=
  String.mk (jsTrimList (stripThinkF s.data.length s.data))

/-- The test `/^<think>[\s\S]*?<\/think>$/.test(text.trim())` from
`fetchAI` in `src/clientCalls.tsx` (case-sensitive, no `i` flag): the
trimmed text is exactly `<think>` + anything + `</think>`, which is
equivalent to having that prefix, that suffix, and length at least 15. -/
def isThinkExact (t : List Char) : Bool :=
  openThink.isPrefixOf t && closeThink.isSuffixOf t && decide (15 ≤ t.length)

/- ===================== Relay service (server/server.js) ============= -/

/-- The JSON body of a `POST /api/ai` request
(`const (message, doc, selection, action, model) = req.body`); absent
fields are `none`. -/
structure PostBody where
  message : Option String
  doc : Option String
  selection : Option String
  action : Option String
  model : Option String
deriving DecidableEq, Repr

/-- JS truthiness of a possibly-absent string field. -/
def jsTruthyS : Option String → Bool
  | none => false
  | some s => !(s = "")

/-- JS `x || ''` for a possibly-absent string. -/
def jsOrEmpty : Option String → String
  | none => ""
  | some s => s

def shortenHeader : String :=
  "Rewrite the following text to be shorter while preserving meaning. Return only the revised text.\n\n"

def lengthenHeader : String :=
  "Expand the following text with clear detail and smooth flow. Return only the revised text.\n\n"

def tableHeader : String :=
  "Convert the following into a simple Markdown table with headers when obvious. Return only the table.\n\n"

def proofreadHeader : String :=
  "Improve clarity and grammar. Return only the revised text.\n\n"

/-- The template prefix selected by the action (the text each branch of
`buildActionPrompt` in `server/server.js` places before the selection). -/
def actionHeader (action : String) : String :=
  if action = "shorten" then shortenHeader
  else if action = "lengthen" then lengthenHeader
  else if action = "table" then tableHeader
  else proofreadHeader

/-- `buildActionPrompt(selection, action)` from `server/server.js`: the
selection is interpolated as-is (not trimmed) after the template text;
the final branch (unknown or absent action) is the proofread template. -/
def buildActionPrompt (selection action : String) : String :=
  if action = "shorten" then shortenHeader ++ selection
  else if action = "lengthen" then lengthenHeader ++ selection
  else if action = "table" then tableHeader ++ selection
  else proofreadHeader ++ selection

/-- The chat-branch prompt template from `server/server.js`:
`'User: ' + (message || '') + '\nDocument context: ' + (doc || '') +
'\n\nPlease provide a helpful response.'`. -/
def chatPrompt (message doc : String) : String :=
  "User: " ++ message ++ "\nDocument context: " ++ doc ++
  "\n\nPlease provide a helpful response."

/-- One line of the relay's read loop: `if (line.trim()) { const chunk =
JSON.parse(line); if (chunk.response) res.write('data: ...') }`.
`parse` abstracts the platform primitive `JSON.parse` combined with the
truthy `.response` extraction: `parse line = some t` iff the line parses
as JSON and its `response` field is truthy with text `t`. -/
def relayLineEvent (parse : String → Option String) (line : List Char) : Option String :=
  if jsTrimList line = [] then none
  else
    match parse (String.mk line) with
    | some t => some (sseData t)
    | none => none

/-- One network read in the relay's read loop: decode, split on newlines,
process each line. -/
def relayProcessRead (parse : String → Option String) (r : String) : List String :=
  (splitNl r.data).filterMap (relayLineEvent parse)

/-- The relay's `while (!done)` read loop over the backend body, modelled
as a fold over the list of reads (the reader's `done` flag corresponds to
the end of the list). -/
def relayReadLoop (parse : String → Option String) : List String → List String
  | [] => []
  | r :: rest => relayProcessRead parse r ++ relayReadLoop parse rest

/-- The specification-level description of the relay's chunk output: one
`data:` event per delivered newline-delimited line that parses with a
truthy `response` field, carrying exactly that text, in arrival order. -/
def specChunkEvents (parse : String → Option String) (reads : List String) : List String :=
  ((reads.map (fun r => splitNl r.data)).flatten).filterMap
    (fun line => (parse (String.mk line)).map sseData)

/-- Behaviour of the inference backend for one request, as the relay
observes it. -/
inductive BackendResult
  | ok (reads : List String)
  | httpError (statusLine : String) (body : String)
  | netFail (message : String)

/-- What one run of the `POST /api/ai` handler produced. -/
structure RelayOutcome where
  contactedBackend : Bool
  promptSent : Option String
  modelSent : Option String
  events : List String
deriving Repr

def defaultModel : String := "llama3.2"

/-- The `POST /api/ai` handler from `server/server.js`: build the prompt
(selection branch or chat branch), pick the model, contact the backend,
then stream chunk events on success or a single sanitized error event on
failure.  There is no request validation before the backend call. -/
def handleAI (parse : String → Option String) (b : PostBody)
    (backend : BackendResult) : RelayOutcome :=
  let prompt :=
    if jsTruthyS b.selection then
      buildActionPrompt (jsOrEmpty b.selection) (jsOrEmpty b.action)
    else chatPrompt (jsOrEmpty b.message) (jsOrEmpty b.doc)
  let modelToUse :=
    match b.model with
    | some m => if 0 < m.length then m else defaultModel
    | none => defaultModel
  match backend with
  | BackendResult.ok reads =>
    ⟨true, some prompt, some modelToUse, relayReadLoop parse reads⟩
  | BackendResult.httpError statusLine body =>
    ⟨true, some prompt, some modelToUse,
      [errorEvent (upstreamErrorMessage statusLine body)]⟩
  | BackendResult.netFail m =>
    ⟨true, some prompt, some modelToUse,
      [errorEvent (if m = "" then "AI service unavailable" else sanitizeErrorText (some m))]⟩

/- ===================== Client (clientCalls.tsx, Chat.tsx) =========== -/

/-- The named arguments of `fetchAI` in `src/clientCalls.tsx`.  The
function has no `signal` parameter. -/
structure FetchAIArgs where
  message : Option String
  doc : Option String
  selection : Option String
  action : Option String
  model : String

/-- A call to the platform `fetch`, with the option fields that matter
here; `signal` is the `AbortSignal` option (`none` when the option is not
present in the init object). -/
structure FetchCall where
  url : String
  method : String
  headers : List (String × String)
  body : PostBody
  signal : Option Unit
deriving Repr

/-- The request `fetchAI` issues:
`fetch('/api/ai', (method POST, content-type header, JSON body))`.  The
init object literal in the source contains only `method`, `headers` and
`body` — no `signal` property, so no `AbortController` is attached. -/
def fetchAICall (a : FetchAIArgs) : FetchCall :=
  { url := "/api/ai"
    method := "POST"
    headers := [("content-type", "application/json")]
    body := ⟨a.message, a.doc, a.selection, a.action, some a.model⟩
    signal := none }

def dataPrefixChars : List Char := ['d', 'a', 't', 'a', ':', ' ']

/-- One SSE line in `fetchAI`'s read loop: lines starting with `data: `
yield their payload, except that a payload whose trim is exactly a
complete `<think>...</think>` block only sets the `isThinking` flag and
is neither accumulated nor streamed. -/
def clientLineText (line : List Char) : Option String :=
  if dataPrefixChars.isPrefixOf line then
    let text := line.drop 6
    if isThinkExact (jsTrimList text) then none else some (String.mk text)
  else none

/-- One network read in `fetchAI`'s read loop: split on newlines and
process each line; the returned texts are, in order, the chunks passed to
`onStream` (and appended to `response`). -/
def clientParseRead (r : String) : List String :=
  (splitNl r.data).filterMap clientLineText

/-- The texts streamed to `onStream` for a whole list of reads. -/
def clientStreamTexts : List String → List String
  | [] => []
  | r :: rest => clientParseRead r ++ clientStreamTexts rest

/- ===================== Chat state machine (Chat.tsx) ================ -/

inductive Role
  | user
  | assistant
deriving DecidableEq, Repr

structure ChatMessage where
  role : Role
  content : String
deriving DecidableEq, Repr

inductive ChatStatus
  | idle
  | streaming
deriving DecidableEq, Repr

/-- The chat component's state: `status`/`statusRef`, the `input` field,
the `messages` transcript, `bufferRef` (accumulated text) and whether
`abortRef` currently holds a controller. -/
structure ChatState where
  status : ChatStatus
  input : String
  messages : List ChatMessage
  buffer : String
  hasController : Bool
deriving DecidableEq, Repr

/-- The events that drive the chat component: a click of Send
(`send()`), delivery of one network chunk to the `onStream` callback, a
click of Pause (`abortIfStreaming()`), resolution of the `fetchAI`
promise (stream end), and its rejection. -/
inductive ChatEvent
  | userSend
  | chunkArrive (c : String)
  | cancelClick
  | streamResolve
  | streamReject (msg : String)

def thinkingSentinel : String := "__thinking__"

/-- `updateLastAssistant`: scan the transcript from the end, replace the
content of the first assistant entry found, and stop. -/
def replaceFirstAssistant (newContent : String) : List ChatMessage → List ChatMessage
  | [] => []
  | m :: rest =>
    if m.role = Role.assistant then ⟨Role.assistant, newContent⟩ :: rest
    else m :: replaceFirstAssistant newContent rest

def updateLastAssistant (newContent : String) (ms : List ChatMessage) : List ChatMessage :=
  (replaceFirstAssistant newContent ms.reverse).reverse

/-- One atomic event-handler run of the chat component, returning the new
state and the chat message issued to the network (for `userSend`).

* `userSend` models `send()`: no-op unless the trimmed input is non-empty
  and the status is idle; otherwise clears input and buffer, appends the
  user entry and the `__thinking__` assistant placeholder, creates an
  abort controller, and goes to streaming.
* `chunkArrive` models the `onStream` callback: discarded unless
  streaming; otherwise appended to the buffer, and the last assistant
  entry is rewritten with the filtered buffer.
* `cancelClick` models `abortIfStreaming()`: from streaming, drops the
  controller and returns to idle (the transcript is untouched).
* `streamResolve` models the code after `await fetchAI` plus the
  `finally` block: an empty buffer rewrites the last assistant entry to
  `[No response]`; status returns to idle.
* `streamReject` models the `catch` plus `finally`: if still streaming,
  the last assistant entry becomes an error message; status returns to
  idle. -/
def stepE (s : ChatState) : ChatEvent → ChatState × Option String
  | ChatEvent.userSend =>
    let content := jsTrimS s.input
    if content = "" ∨ s.status ≠ ChatStatus.idle then (s, none)
    else
      ({ status := ChatStatus.streaming
         input := ""
         messages := s.messages ++ [⟨Role.user, content⟩, ⟨Role.assistant, thinkingSentinel⟩]
         buffer := ""
         hasController := true }, some content)
  | ChatEvent.chunkArrive c =>
    if s.status ≠ ChatStatus.streaming then (s, none)
    else
      ({ s with
          buffer := s.buffer ++ c
          messages := updateLastAssistant (stripThinkBlocks (s.buffer ++ c)) s.messages },
       none)
  | ChatEvent.cancelClick =>
    if s.status = ChatStatus.streaming then
      ({ s with status := ChatStatus.idle, hasController := false }, none)
    else (s, none)
  | ChatEvent.streamResolve =>
    ({ s with
        messages := if s.buffer = "" then updateLastAssistant "[No response]" s.messages
                    else s.messages
        status := ChatStatus.idle
        hasController := false }, none)
  | ChatEvent.streamReject m =>
    ({ s with
        messages := if s.status = ChatStatus.streaming then
                      updateLastAssistant ("Error: " ++ m) s.messages
                    else s.messages
        status := ChatStatus.idle
        hasController := false }, none)

def step (s : ChatState) (e : ChatEvent) : ChatState := (stepE s e).1

/-- Deliver a list of chunks, in order, to the chat component. -/
def applyChunks (s : ChatState) : List String → ChatState
  | [] => s
  | c :: cs => applyChunks (step s (ChatEvent.chunkArrive c)) cs

/-- Concatenation of a list of strings (the order-preserving join the
chunk-concatenation property talks about). -/
def joinS : List String → String
  | [] => ""
  | c :: cs => c ++ joinS cs

/- ================== Concrete inputs for evaluation ================== -/

/-- The request body with neither `message` nor `selection`/`action`. -/
def emptyBody : PostBody := ⟨none, none, none, none, none⟩

/-- A concrete stand-in for `JSON.parse` + `.response` used in concrete
evaluations: only the line `chunkline` parses, with response `hello`. -/
def parseHi : String → Option String :=
  fun s => if s = "chunkline" then some "hello" else none

/-- A concrete stand-in for `JSON.parse` + `.response`: only the line
`w` parses, with response `W`. -/
def parseW : String → Option String :=
  fun s => if s = "w" then some "W" else none

/-- A concrete chat state in the middle of a streaming generation. -/
def sC5 : ChatState :=
  ⟨ChatStatus.streaming, "", [⟨Role.user, "q"⟩, ⟨Role.assistant, thinkingSentinel⟩], "", true⟩

/-- A concrete idle chat state with pending input `hi`. -/
def s0C1 : ChatState := ⟨ChatStatus.idle, "hi", [], "", false⟩

/- ============================ Theorems ============================== -/

/-- C9: invoking `send()` while the status is not idle, or with input
that trims to the empty string, is a complete no-op: the state (transcript,
buffer, status, input) is unchanged and no network request is issued. -/
theorem send_noop_guard (s : ChatState)
    (h : jsTrimS s.input = "" ∨ s.status ≠ ChatStatus.idle) :
    stepE s ChatEvent.userSend = (s, none) := by
  unfold stepE
  exact if_pos h

/-- Witness for C9 at a concrete state: whitespace-only input. -/
theorem send_noop_guard_witness :
    stepE ⟨ChatStatus.idle, "   ", [], "", false⟩ ChatEvent.userSend =
      (⟨ChatStatus.idle, "   ", [], "", false⟩, none) :=
  send_noop_guard _ (Or.inl (by decide))

/-- C10: `sanitizeErrorText` is total; every output has length at most
200, and a `null`/`undefined` (`none`) or empty input yields the fixed
fallback `Connection error occurred`. -/
theorem sanitize_total_bounded :
    (∀ t, (sanitizeErrorText t).length ≤ 200) ∧
    sanitizeErrorText none = "Connection error occurred" ∧
    sanitizeErrorText (some "") = "Connection error occurred" := by
  refine ⟨?_, rfl, by decide⟩
  intro t
  cases t with
  | none => decide
  | some s =>
    by_cases h : s = ""
    · simp only [sanitizeErrorText, if_pos h]
      decide
    · simp only [sanitizeErrorText, if_neg h]
      show (List.take 200 (jsTrimList (collapseWs (stripTags s.data)))).length ≤ 200
      rw [List.length_take]
      exact Nat.min_le_left _ _

/-- C2 (code bug): the request `fetchAI` issues carries no abort signal:
the init object passed to `fetch` has no `signal` property, so the
`AbortController` that `abortIfStreaming()` aborts is never attached to
the network request and `cancel()` cannot tear the connection down. -/
theorem fetchAI_has_no_abort_signal (a : FetchAIArgs) :
    (fetchAICall a).signal = none ∧ (fetchAICall a).url = "/api/ai" ∧
    (fetchAICall a).method = "POST" :=
  ⟨rfl, rfl, rfl⟩

/-- C3 counterexample: a request missing both `message` and
`(selection, action)` is not rejected: the relay contacts the backend,
and with a healthy backend it emits a chunk event and no error event, so
neither "rejects before contacting the backend" nor "exactly one error
event and no chunk events" holds. -/
theorem missing_fields_not_rejected_counterexample :
    (handleAI parseHi emptyBody (BackendResult.ok ["chunkline\n"])).contactedBackend = true ∧
    (handleAI parseHi emptyBody (BackendResult.ok ["chunkline\n"])).events =
      [sseData "hello"] := by
  constructor <;> rfl

/-- C3 amended: the relay performs no request validation: a request with
neither `message` nor `(selection, action)` is forwarded to the backend
with the default chat prompt built from empty fields, for every backend
behaviour; error events arise only from backend failure. -/
theorem missing_fields_forwarded_amended (parse : String → Option String)
    (backend : BackendResult) :
    (handleAI parse emptyBody backend).contactedBackend = true ∧
    (handleAI parse emptyBody backend).promptSent =
      some "User: \nDocument context: \n\nPlease provide a helpful response." := by
  cases backend <;> exact ⟨rfl, rfl⟩

/-- C7 counterexample: the relay's `buildActionPrompt` does not trim the
selection: for selection `"  hi  "` and action `shorten` the produced
prompt keeps the surrounding spaces, so it differs from the template with
the trimmed selection embedded. -/
theorem prompt_trim_counterexample :
    buildActionPrompt "  hi  " "shorten" ≠ shortenHeader ++ "hi" ∧
    buildActionPrompt "  hi  " "shorten" = shortenHeader ++ "  hi  " := by
  constructor
  · decide
  · rfl

/-- C7 amended: the relay embeds the selection verbatim as received
(without trimming) after the template text selected by the action, and
any unknown or absent action selects the proofread template. -/
theorem prompt_verbatim_amended (sel act : String) :
    buildActionPrompt sel act = actionHeader act ++ sel ∧
    (act ≠ "shorten" → act ≠ "lengthen" → act ≠ "table" →
      actionHeader act = proofreadHeader) := by
  constructor
  · unfold buildActionPrompt actionHeader
    by_cases h1 : act = "shorten" <;> by_cases h2 : act = "lengthen" <;>
      by_cases h3 : act = "table" <;> simp [h1, h2, h3]
  · intro h1 h2 h3
    unfold actionHeader
    simp [h1, h2, h3]

/-- Witness for C7 amended at the concrete action `grammar` (an action
name the relay does not recognize). -/
theorem prompt_verbatim_amended_witness :
    buildActionPrompt "x" "grammar" = actionHeader "grammar" ++ "x" ∧
    actionHeader "grammar" = proofreadHeader :=
  ⟨(prompt_verbatim_amended "x" "grammar").1,
   (prompt_verbatim_amended "x" "grammar").2 (by decide) (by decide) (by decide)⟩

/-- C1 counterexample: issuing a request and cancelling before any chunk
arrives does not remove the initial assistant placeholder: after
`send()` then `abortIfStreaming()` the transcript still contains the
`__thinking__` placeholder entry, so the transcript is not "unchanged
apart from removal of the initial placeholder". -/
theorem cancel_placeholder_counterexample :
    (step (step s0C1 ChatEvent.userSend) ChatEvent.cancelClick).status = ChatStatus.idle ∧
    (step (step s0C1 ChatEvent.userSend) ChatEvent.cancelClick).messages =
      [⟨Role.user, "hi"⟩, ⟨Role.assistant, thinkingSentinel⟩] ∧
    (step (step s0C1 ChatEvent.userSend) ChatEvent.cancelClick).messages ≠
      [⟨Role.user, "hi"⟩] := by
  refine ⟨?_, ?_, ?_⟩ <;> decide

theorem step_chunk_not_streaming (s : ChatState) (h : s.status ≠ ChatStatus.streaming)
    (c : String) : step s (ChatEvent.chunkArrive c) = s := by
  simp only [step, stepE]
  rw [if_pos h]

theorem applyChunks_not_streaming (s : ChatState) (h : s.status ≠ ChatStatus.streaming) :
    ∀ cs, applyChunks s cs = s := by
  intro cs
  induction cs with
  | nil => rfl
  | cons c cs ih =>
    show applyChunks (step s (ChatEvent.chunkArrive c)) cs = s
    rw [step_chunk_not_streaming s h c]
    exact ih

/-- C1 amended: `cancel()` from the streaming state synchronously yields
status Idle with buffer and transcript untouched, and while the session
stays idle every delivered chunk is discarded; but cancelling right after
issuing a request leaves the user entry and the `__thinking__` assistant
placeholder in the transcript — the placeholder is not removed. -/
theorem cancel_wins_amended :
    (∀ s : ChatState, s.status = ChatStatus.streaming →
        (step s ChatEvent.cancelClick).status = ChatStatus.idle ∧
        (step s ChatEvent.cancelClick).buffer = s.buffer ∧
        (step s ChatEvent.cancelClick).messages = s.messages) ∧
    (∀ s : ChatState, s.status ≠ ChatStatus.streaming → ∀ cs, applyChunks s cs = s) ∧
    (∀ s : ChatState, s.status = ChatStatus.idle → jsTrimS s.input ≠ "" →
        (step (step s ChatEvent.userSend) ChatEvent.cancelClick).status = ChatStatus.idle ∧
        (step (step s ChatEvent.userSend) ChatEvent.cancelClick).messages =
          s.messages ++ [⟨Role.user, jsTrimS s.input⟩, ⟨Role.assistant, thinkingSentinel⟩]) := by
  refine ⟨?_, applyChunks_not_streaming, ?_⟩
  · intro s h
    simp only [step, stepE]
    rw [if_pos h]
    exact ⟨rfl, rfl, rfl⟩
  · intro s h1 h2
    have hg : ¬(jsTrimS s.input = "" ∨ s.status ≠ ChatStatus.idle) := by
      rintro (hc | hc)
      · exact h2 hc
      · exact hc h1
    simp only [step, stepE]
    rw [if_neg hg]
    exact ⟨rfl, rfl⟩

/-- Witness for C1 amended at concrete states. -/
theorem cancel_wins_amended_witness :
    ((step sC5 ChatEvent.cancelClick).status = ChatStatus.idle ∧
      (step sC5 ChatEvent.cancelClick).buffer = sC5.buffer ∧
      (step sC5 ChatEvent.cancelClick).messages = sC5.messages) ∧
    applyChunks (step sC5 ChatEvent.cancelClick) ["late"] = step sC5 ChatEvent.cancelClick ∧
    (step (step s0C1 ChatEvent.userSend) ChatEvent.cancelClick).messages =
      s0C1.messages ++ [⟨Role.user, jsTrimS s0C1.input⟩, ⟨Role.assistant, thinkingSentinel⟩] :=
  ⟨cancel_wins_amended.1 sC5 (by decide),
   cancel_wins_amended.2.1 (step sC5 ChatEvent.cancelClick) (by decide) ["late"],
   (cancel_wins_amended.2.2 s0C1 (by decide) (by decide)).2⟩

/-- C5 counterexample: the relay delivers the single chunk `a\nb`
(an SSE write `data: a\nb\n\n`); the client's line parser keeps only the
part before the newline, so the final accumulated text is `a`, not the
concatenation `a\nb`. -/
theorem chunk_concat_counterexample :
    clientStreamTexts [sseData "a\nb"] = ["a"] ∧
    (applyChunks sC5 (clientStreamTexts [sseData "a\nb"])).buffer ≠ "a\nb" := by
  constructor
  · rfl
  · decide

theorem containsAppendFalse (a : Char) (x y : List Char) (hx : x.contains a = false)
    (hy : y.contains a = false) : (x ++ y).contains a = false := by
  induction x with
  | nil => simpa using hy
  | cons c x ih =>
    simp only [List.contains_cons, Bool.or_eq_false_iff] at hx
    simp only [List.cons_append, List.contains_cons, Bool.or_eq_false_iff]
    exact ⟨hx.1, ih hx.2⟩

theorem splitNl_append (x y : List Char) (hx : x.contains '\n' = false) :
    splitNl (x ++ '\n' :: y) = x :: splitNl y := by
  induction x with
  | nil =>
    simp [splitNl]
  | cons c x ih =>
    simp only [List.contains_cons, Bool.or_eq_false_iff] at hx
    have hc : ¬(c = '\n') := by
      intro h
      rw [h] at hx
      simp at hx
    simp only [List.cons_append, splitNl, if_neg hc, List.append_eq, ih hx.2]

theorem isPrefixOfAppendSelf (p t : List Char) : p.isPrefixOf (p ++ t) = true := by
  induction p with
  | nil => simp [List.isPrefixOf]
  | cons c p ih => simp [List.isPrefixOf, ih]

/-- The client parses one well-aligned SSE chunk event back to its text,
provided the text contains no newline and is not an exact think block. -/
theorem clientParseRead_sseData (c : String) (h1 : c.data.contains '\n' = false)
    (h2 : isThinkExact (jsTrimList c.data) = false) :
    clientParseRead (sseData c) = [c] := by
  have hdata : (sseData c).data = (dataPrefixChars ++ c.data) ++ '\n' :: ['\n'] := by
    simp [sseData, String.data_append, dataPrefixChars]
  have hx : (dataPrefixChars ++ c.data).contains '\n' = false :=
    containsAppendFalse _ _ _ (by decide) h1
  have hdrop : (dataPrefixChars ++ c.data).drop 6 = c.data := by
    have h6 : dataPrefixChars.length = 6 := rfl
    rw [← h6, List.drop_left]
  have hline : clientLineText (dataPrefixChars ++ c.data) = some c := by
    simp only [clientLineText, isPrefixOfAppendSelf, if_true, hdrop, h2,
      Bool.false_eq_true, if_false]
  unfold clientParseRead
  rw [hdata, splitNl_append _ _ hx]
  simp only [List.filterMap_cons, hline]
  have hnil : List.filterMap clientLineText (splitNl ['\n']) = [] := by decide
  rw [hnil]

theorem applyChunks_buffer (cs : List String) :
    ∀ s : ChatState, s.status = ChatStatus.streaming →
      (applyChunks s cs).buffer = s.buffer ++ joinS cs := by
  induction cs with
  | nil =>
    intro s _
    show s.buffer = s.buffer ++ joinS []
    simp [joinS]
  | cons c cs ih =>
    intro s h
    have hstep : step s (ChatEvent.chunkArrive c) =
        { s with
            buffer := s.buffer ++ c
            messages := updateLastAssistant (stripThinkBlocks (s.buffer ++ c)) s.messages } := by
      simp only [step, stepE]
      rw [if_neg (by simp [h])]
    show (applyChunks (step s (ChatEvent.chunkArrive c)) cs).buffer = s.buffer ++ joinS (c :: cs)
    rw [hstep, ih _ (by rw [h])]
    show s.buffer ++ c ++ joinS cs = s.buffer ++ (c ++ joinS cs)
    rw [String.append_assoc]

/-- C5 amended: for an error-free generation whose chunks each contain no
newline and are not exact think blocks, and whose SSE events each arrive
as one read, the client recovers exactly the chunk sequence and its final
accumulated text (pre meta-filter) is the concatenation, in order, with
nothing lost or duplicated.  (A chunk containing a newline is truncated
at the newline, and a chunk that is exactly a `<think>...</think>` block
is suppressed — see the counterexample.) -/
theorem chunk_concat_amended (cs : List String)
    (h : ∀ c ∈ cs, c.data.contains '\n' = false ∧ isThinkExact (jsTrimList c.data) = false) :
    clientStreamTexts (cs.map sseData) = cs ∧
    (∀ s : ChatState, s.status = ChatStatus.streaming →
      (applyChunks s (clientStreamTexts (cs.map sseData))).buffer = s.buffer ++ joinS cs) := by
  have htexts : clientStreamTexts (cs.map sseData) = cs := by
    induction cs with
    | nil => rfl
    | cons c cs ih =>
      have hc := h c (by simp)
      show clientParseRead (sseData c) ++ clientStreamTexts (cs.map sseData) = c :: cs
      rw [clientParseRead_sseData c hc.1 hc.2,
        ih (fun d hd => h d (by simp [hd]))]
      rfl
  refine ⟨htexts, ?_⟩
  intro s hs
  rw [htexts]
  exact applyChunks_buffer cs s hs

/-- Witness for C5 amended at the spec's scenario-A chunk sequence. -/
theorem chunk_concat_amended_witness :
    clientStreamTexts (["Hi", " there", "!"].map sseData) = ["Hi", " there", "!"] ∧
    (applyChunks sC5 (clientStreamTexts (["Hi", " there", "!"].map sseData))).buffer =
      sC5.buffer ++ joinS ["Hi", " there", "!"] :=
  ⟨(chunk_concat_amended ["Hi", " there", "!"] (by decide)).1,
   (chunk_concat_amended ["Hi", " there", "!"] (by decide)).2 sC5 (by decide)⟩

theorem filterMapCongrList {α β : Type} (f g : α → Option β) :
    ∀ l : List α, (∀ a ∈ l, f a = g a) → List.filterMap f l = List.filterMap g l := by
  intro l h
  induction l with
  | nil => rfl
  | cons a l ih =>
    rw [List.filterMap_cons, List.filterMap_cons, h a (by simp),
      ih (fun b hb => h b (by simp [hb]))]

theorem relayLineEvent_eq_map (parse : String → Option String)
    (hw : ∀ l : List Char, jsTrimList l = [] → parse (String.mk l) = none)
    (line : List Char) :
    relayLineEvent parse line = (parse (String.mk line)).map sseData := by
  unfold relayLineEvent
  by_cases h : jsTrimList line = []
  · rw [if_pos h, hw line h]
    rfl
  · rw [if_neg h]
    cases parse (String.mk line) <;> rfl

theorem relayProcessRead_eq (parse : String → Option String)
    (hw : ∀ l : List Char, jsTrimList l = [] → parse (String.mk l) = none)
    (r : String) :
    relayProcessRead parse r =
      (splitNl r.data).filterMap (fun line => (parse (String.mk line)).map sseData) :=
  filterMapCongrList _ _ _ (fun line _ => relayLineEvent_eq_map parse hw line)

theorem relayProcessRead_none (parse : String → Option String) (bad : String)
    (hb : ∀ line ∈ splitNl bad.data, parse (String.mk line) = none) :
    relayProcessRead parse bad = [] := by
  unfold relayProcessRead
  rw [List.filterMap_eq_nil_iff]
  intro line hline
  unfold relayLineEvent
  by_cases h : jsTrimList line = []
  · rw [if_pos h]
  · rw [if_neg h, hb line hline]

/-- C4: the relay's read loop is exactly the specified per-line mapping:
for every abstraction `parse` of the platform's `JSON.parse` + truthy
`.response` extraction (subject only to the fact, true of `JSON.parse`,
that a whitespace-only line never parses), and every sequence of body
reads, the emitted events are exactly one `data:` chunk event per
delivered newline-delimited line that parses with a truthy `response`
field, carrying exactly that text, in arrival order; and a read whose
lines all fail to parse contributes no event and leaves the rest of the
stream unaffected. -/
theorem relay_chunk_events_per_line (parse : String → Option String)
    (hw : ∀ l : List Char, jsTrimList l = [] → parse (String.mk l) = none) :
    (∀ reads, relayReadLoop parse reads = specChunkEvents parse reads) ∧
    (∀ pre post : List String, ∀ bad : String,
      (∀ line ∈ splitNl bad.data, parse (String.mk line) = none) →
      relayReadLoop parse (pre ++ bad :: post) = relayReadLoop parse (pre ++ post)) := by
  constructor
  · intro reads
    induction reads with
    | nil => rfl
    | cons r rest ih =>
      show relayProcessRead parse r ++ relayReadLoop parse rest = specChunkEvents parse (r :: rest)
      unfold specChunkEvents
      rw [List.map_cons, List.flatten_cons, List.filterMap_append]
      rw [relayProcessRead_eq parse hw r, ih]
      rfl
  · intro pre post bad hb
    induction pre with
    | nil =>
      show relayProcessRead parse bad ++ relayReadLoop parse post = relayReadLoop parse post
      rw [relayProcessRead_none parse bad hb]
      rfl
    | cons p pre ih =>
      show relayProcessRead parse p ++ relayReadLoop parse (pre ++ bad :: post) =
        relayProcessRead parse p ++ relayReadLoop parse (pre ++ post)
      rw [ih]

theorem parseW_hw : ∀ l : List Char, jsTrimList l = [] → parseW (String.mk l) = none := by
  intro l h
  unfold parseW
  by_cases hs : String.mk l = "w"
  · exfalso
    have hl : l = ['w'] := congrArg String.data hs
    rw [hl] at h
    exact absurd h (by decide)
  · rw [if_neg hs]

/-- Witness for C4 at a concrete parse function and concrete reads. -/
theorem relay_chunk_events_per_line_witness :
    relayReadLoop parseW ["w\n", "bad"] = specChunkEvents parseW ["w\n", "bad"] ∧
    relayReadLoop parseW (["w"] ++ "bad" :: ["w"]) = relayReadLoop parseW (["w"] ++ ["w"]) :=
  ⟨(relay_chunk_events_per_line parseW parseW_hw).1 ["w\n", "bad"],
   (relay_chunk_events_per_line parseW parseW_hw).2 ["w"] ["w"] "bad" (by decide)⟩

theorem noGtImpNoLtGt : ∀ l : List Char, l.contains '>' = false → noLtGtB l = true := by
  intro l h
  induction l with
  | nil => rfl
  | cons c l ih =>
    simp only [List.contains_cons, Bool.or_eq_false_iff] at h
    simp only [noLtGtB]
    by_cases hc : c = '<'
    · rw [if_pos hc, h.2]
      rfl
    · rw [if_neg hc]
      exact ih h.2

theorem noLtGt_tail (c : Char) (l : List Char) (h : noLtGtB (c :: l) = true) :
    noLtGtB l = true := by
  simp only [noLtGtB] at h
  by_cases hc : c = '<'
  · rw [if_pos hc] at h
    exact noGtImpNoLtGt l (by simpa using h)
  · rwa [if_neg hc] at h

theorem containsFalseAppendLeft (a : Char) (x y : List Char)
    (h : (x ++ y).contains a = false) : x.contains a = false := by
  induction x with
  | nil => rfl
  | cons c x ih =>
    simp only [List.cons_append, List.contains_cons, Bool.or_eq_false_iff] at h
    simp only [List.contains_cons, Bool.or_eq_false_iff]
    exact ⟨h.1, ih h.2⟩

theorem noLtGt_append_left (x y : List Char) (h : noLtGtB (x ++ y) = true) :
    noLtGtB x = true := by
  induction x with
  | nil => rfl
  | cons c x ih =>
    simp only [List.cons_append, noLtGtB] at h ⊢
    by_cases hc : c = '<'
    · rw [if_pos hc] at h ⊢
      have : (x ++ y).contains '>' = false := by simpa using h
      rw [containsFalseAppendLeft _ _ _ this]
      rfl
    · rw [if_neg hc] at h ⊢
      exact ih h

theorem containsFalseDropWhile (a : Char) (p : Char → Bool) :
    ∀ l : List Char, l.contains a = false → (l.dropWhile p).contains a = false := by
  intro l h
  induction l with
  | nil => rfl
  | cons c l ih =>
    simp only [List.contains_cons, Bool.or_eq_false_iff] at h
    rw [List.dropWhile_cons]
    by_cases hp : p c = true
    · rw [if_pos hp]
      exact ih h.2
    · rw [if_neg hp]
      simp only [List.contains_cons, Bool.or_eq_false_iff]
      exact ⟨h.1, h.2⟩

theorem noLtGt_dropWhile (p : Char → Bool) :
    ∀ l : List Char, noLtGtB l = true → noLtGtB (l.dropWhile p) = true := by
  intro l h
  induction l with
  | nil => rfl
  | cons c l ih =>
    rw [List.dropWhile_cons]
    by_cases hp : p c = true
    · rw [if_pos hp]
      exact ih (noLtGt_tail c l h)
    · rw [if_neg hp]
      exact h

theorem stripTags_noLtGt : ∀ (f : Nat) (l : List Char), l.length ≤ f →
    noLtGtB (stripTagsF f l) = true := by
  intro f
  induction f with
  | zero =>
    intro l hl
    rw [Nat.le_zero, List.length_eq_zero] at hl
    rw [hl]
    rfl
  | succ f ih =>
    intro l hl
    match l with
    | [] => rfl
    | c :: rest =>
      simp only [stripTagsF]
      have hrest : rest.length ≤ f := by
        simpa [Nat.succ_le_succ_iff] using hl
      by_cases hc : c = '<'
      · rw [if_pos hc]
        by_cases hg : rest.contains '>' = true
        · rw [if_pos hg]
          have hlen : (dropThroughGt rest).length ≤ f := by
            calc (dropThroughGt rest).length
                ≤ (rest.dropWhile (fun c => !(c = '>'))).length := by
                  simp [dropThroughGt]
              _ ≤ rest.length := (List.dropWhile_sublist _).length_le
              _ ≤ f := hrest
          have := ih (dropThroughGt rest) hlen
          simpa [noLtGtB] using this
        · rw [if_neg hg]
          simp only [noLtGtB, if_pos hc]
          rw [Bool.not_eq_true] at hg
          rw [hg]
          rfl
      · rw [if_neg hc]
        simp only [noLtGtB, if_neg hc]
        exact ih rest hrest

theorem collapseContainsGtFalse : ∀ (f : Nat) (l : List Char), l.contains '>' = false →
    (collapseWsF f l).contains '>' = false := by
  intro f
  induction f with
  | zero => intro l h; exact h
  | succ f ih =>
    intro l h
    match l with
    | [] => rfl
    | c :: rest =>
      simp only [List.contains_cons, Bool.or_eq_false_iff] at h
      simp only [collapseWsF]
      by_cases hw : isJsWs c = true
      · rw [if_pos hw]
        simp only [List.contains_cons, Bool.or_eq_false_iff]
        refine ⟨by decide, ?_⟩
        exact ih _ (containsFalseDropWhile _ _ _ h.2)
      · rw [if_neg hw]
        simp only [List.contains_cons, Bool.or_eq_false_iff]
        exact ⟨h.1, ih rest h.2⟩

theorem collapse_noLtGt : ∀ (f : Nat) (l : List Char), noLtGtB l = true →
    noLtGtB (collapseWsF f l) = true := by
  intro f
  induction f with
  | zero => intro l h; exact h
  | succ f ih =>
    intro l h
    match l with
    | [] => rfl
    | c :: rest =>
      simp only [collapseWsF]
      by_cases hw : isJsWs c = true
      · rw [if_pos hw]
        have : noLtGtB (List.dropWhile isJsWs rest) = true :=
          noLtGt_dropWhile _ _ (noLtGt_tail c rest h)
        have := ih _ this
        simpa [noLtGtB] using this
      · rw [if_neg hw]
        simp only [noLtGtB] at h ⊢
        by_cases hc : c = '<'
        · rw [if_pos hc] at h ⊢
          have hrest : rest.contains '>' = false := by simpa using h
          rw [collapseContainsGtFalse f rest hrest]
          rfl
        · rw [if_neg hc] at h ⊢
          exact ih rest h

theorem jsTrimRight_is_prefixPart (l : List Char) : ∃ y, l = jsTrimRight l ++ y := by
  refine ⟨(l.reverse.takeWhile isJsWs).reverse, ?_⟩
  unfold jsTrimRight
  rw [← List.reverse_append, List.takeWhile_append_dropWhile isJsWs l.reverse,
    List.reverse_reverse]

theorem noLtGt_trim (l : List Char) (h : noLtGtB l = true) :
    noLtGtB (jsTrimList l) = true := by
  unfold jsTrimList
  have h1 : noLtGtB (l.dropWhile isJsWs) = true := noLtGt_dropWhile _ _ h
  obtain ⟨y, hy⟩ := jsTrimRight_is_prefixPart (l.dropWhile isJsWs)
  rw [hy] at h1
  exact noLtGt_append_left _ _ h1

theorem noLtGt_take (n : Nat) (l : List Char) (h : noLtGtB l = true) :
    noLtGtB (l.take n) = true := by
  have := List.take_append_drop n l
  rw [← this] at h
  exact noLtGt_append_left _ _ h

theorem sanitizeNoLtGt (s : String) : noLtGtB (sanitizeErrorText (some s)).data = true := by
  by_cases h : s = ""
  · simp only [sanitizeErrorText, if_pos h]
    decide
  · simp only [sanitizeErrorText, if_neg h]
    show noLtGtB ((jsTrimList (collapseWs (stripTags s.data))).take 200) = true
    apply noLtGt_take
    apply noLtGt_trim
    apply collapse_noLtGt
    exact stripTags_noLtGt _ _ (Nat.le_refl _)

theorem sanitizeLenAux (s : String) : (sanitizeErrorText (some s)).length ≤ 200 := by
  by_cases h : s = ""
  · simp only [sanitizeErrorText, if_pos h]
    decide
  · simp only [sanitizeErrorText, if_neg h]
    show (List.take 200 (jsTrimList (collapseWs (stripTags s.data)))).length ≤ 200
    rw [List.length_take]
    exact Nat.min_le_left _ _

/-- C6 counterexample: the backend error body `a<b` (a `<` never followed
by `>`) passes through sanitization untouched, so the emitted error
message contains a `<`, contradicting "contains no `<` and no `>`". -/
theorem sanitize_angle_counterexample :
    upstreamErrorMessage "503" "a<b" = "Upstream 503: a<b" ∧
    (upstreamErrorMessage "503" "a<b").data.contains '<' = true := by
  constructor
  · decide
  · decide

/-- C6 amended: for every backend error body and status line, the emitted
error message has length at most 200 and never contains a complete tag:
no `<` in it is ever followed by a later `>` (in particular every full
`<...>` span of the body is removed); a lone `<` or `>` can survive. -/
theorem sanitize_error_amended (statusLine body : String) :
    (upstreamErrorMessage statusLine body).length ≤ 200 ∧
    noLtGtB (upstreamErrorMessage statusLine body).data = true :=
  ⟨sanitizeLenAux _, sanitizeNoLtGt _⟩

theorem swciFalseHead (p0 c : Char) (ps l : List Char) (h : lowerEq p0 c = false) :
    startsWithCI (p0 :: ps) (c :: l) = false := by
  simp [startsWithCI, h]

theorem swciFalseSecond (p0 p1 c0 c1 : Char) (ps l : List Char)
    (h : lowerEq p1 c1 = false) :
    startsWithCI (p0 :: p1 :: ps) (c0 :: c1 :: l) = false := by
  simp [startsWithCI, h]

theorem startsWithCI_le_length : ∀ (p l : List Char), startsWithCI p l = true →
    p.length ≤ l.length := by
  intro p
  induction p with
  | nil => intro l _; exact Nat.zero_le _
  | cons p0 ps ih =>
    intro l h
    match l with
    | [] => exact absurd h (by simp [startsWithCI])
    | c :: l' =>
      simp only [startsWithCI, Bool.and_eq_true] at h
      simpa [Nat.succ_le_succ_iff] using ih l' h.2

theorem startsWithCI_long (p l : List Char) (h : l.length < p.length) :
    startsWithCI p l = false := by
  by_cases hs : startsWithCI p l = true
  · exact absurd (startsWithCI_le_length p l hs) (by omega)
  · simpa using hs

theorem startsWithCI_self_append : ∀ (p t : List Char), startsWithCI p (p ++ t) = true := by
  intro p t
  induction p with
  | nil => rfl
  | cons c p ih => simp [startsWithCI, lowerEq, ih]

theorem startsWithCI_append_decomp : ∀ (x p t : List Char),
    startsWithCI p (x ++ t) =
      (startsWithCI (p.take x.length) x && startsWithCI (p.drop x.length) t) := by
  intro x
  induction x with
  | nil =>
    intro p t
    simp [startsWithCI]
  | cons c x ih =>
    intro p t
    match p with
    | [] => simp [startsWithCI]
    | p0 :: p' =>
      show startsWithCI (p0 :: p') (c :: (x ++ t)) = _
      simp only [startsWithCI, List.length_cons, List.take_succ_cons, List.drop_succ_cons]
      rw [ih p' t]
      simp [Bool.and_assoc]

theorem startsWithCI_append_of_le (p x t : List Char) (h : p.length ≤ x.length) :
    startsWithCI p (x ++ t) = startsWithCI p x := by
  rw [startsWithCI_append_decomp, List.take_of_length_le h, List.drop_eq_nil_of_le h]
  simp [startsWithCI]

theorem findCloseSplit_some_length : ∀ (l y : List Char), findCloseSplit l = some y →
    y.length + 8 ≤ l.length := by
  intro l
  induction l with
  | nil => intro y h; exact absurd h (by simp [findCloseSplit])
  | cons c rest ih =>
    intro y h
    simp only [findCloseSplit] at h
    by_cases hs : startsWithCI closeThink (c :: rest) = true
    · rw [if_pos hs] at h
      have hlen : closeThink.length ≤ (c :: rest).length := startsWithCI_le_length _ _ hs
      have h8 : (8 : Nat) ≤ (c :: rest).length := hlen
      have : y = (c :: rest).drop 8 := by
        injection h with h'
        exact h'.symm
      rw [this, List.length_drop]
      omega
    · rw [if_neg hs] at h
      have := ih y h
      simp only [List.length_cons]
      omega

theorem hasThinkF_false_id : ∀ (f : Nat) (l : List Char), hasThinkF f l = false →
    stripThinkF f l = l := by
  intro f
  induction f with
  | zero => intro l _; rfl
  | succ f ih =>
    intro l h
    match l with
    | [] => rfl
    | c :: rest =>
      simp only [hasThinkF] at h
      simp only [stripThinkF]
      by_cases hs : startsWithCI openThink (c :: rest) = true
      · rw [if_pos hs] at h ⊢
        cases hfc : findCloseSplit ((c :: rest).drop 7) with
        | none => rfl
        | some y =>
          rw [hfc] at h
          simp at h
      · rw [if_neg hs] at h ⊢
        rw [ih rest h]

theorem dropWhileIdem (p : Char → Bool) : ∀ l : List Char,
    (l.dropWhile p).dropWhile p = l.dropWhile p := by
  intro l
  induction l with
  | nil => rfl
  | cons c l ih =>
    rw [List.dropWhile_cons]
    by_cases hp : p c = true
    · rw [if_pos hp]
      exact ih
    · rw [if_neg hp, List.dropWhile_cons, if_neg hp]

theorem jsTrimRightIdem (l : List Char) : jsTrimRight (jsTrimRight l) = jsTrimRight l := by
  unfold jsTrimRight
  rw [List.reverse_reverse, dropWhileIdem]

theorem dropWhileEqSelfOfAppend (p : Char → Bool) : ∀ (x y : List Char),
    (x ++ y).dropWhile p = x ++ y → x.dropWhile p = x := by
  intro x y h
  match x with
  | [] => rfl
  | c :: x' =>
    rw [List.cons_append, List.dropWhile_cons] at h
    by_cases hp : p c = true
    · rw [if_pos hp] at h
      exfalso
      have h1 : ((x' ++ y).dropWhile p).length = (x' ++ y).length + 1 := by
        rw [h]
        simp
      have h2 : ((x' ++ y).dropWhile p).length ≤ (x' ++ y).length :=
        (List.dropWhile_sublist p).length_le
      omega
    · rw [List.dropWhile_cons, if_neg hp]

theorem jsTrimIdem (l : List Char) : jsTrimList (jsTrimList l) = jsTrimList l := by
  unfold jsTrimList
  obtain ⟨y, hy⟩ := jsTrimRight_is_prefixPart (l.dropWhile isJsWs)
  have h1 : (jsTrimRight (l.dropWhile isJsWs)).dropWhile isJsWs =
      jsTrimRight (l.dropWhile isJsWs) := by
    apply dropWhileEqSelfOfAppend isJsWs _ y
    rw [← hy]
    exact dropWhileIdem _ l
  rw [h1, jsTrimRightIdem]

theorem strip_think_conditional_idem (s : String)
    (h : hasThinkL (stripThinkBlocks s).data = false) :
    stripThinkBlocks (stripThinkBlocks s) = stripThinkBlocks s := by
  have h' : hasThinkF (jsTrimList (stripThinkF s.data.length s.data)).length
      (jsTrimList (stripThinkF s.data.length s.data)) = false := h
  show String.mk (jsTrimList (stripThinkF
      (jsTrimList (stripThinkF s.data.length s.data)).length
      (jsTrimList (stripThinkF s.data.length s.data)))) =
    String.mk (jsTrimList (stripThinkF s.data.length s.data))
  rw [hasThinkF_false_id _ _ h', jsTrimIdem]

theorem closeDropHeadFalse (n : Nat) (h1 : 1 ≤ n) (h2 : n ≤ 7) (v : List Char) :
    startsWithCI (closeThink.drop n) (openThink ++ v) = false := by
  interval_cases n
  · exact swciFalseHead '/' '<' _ _ (by decide)
  · exact swciFalseHead 't' '<' _ _ (by decide)
  · exact swciFalseHead 'h' '<' _ _ (by decide)
  · exact swciFalseHead 'i' '<' _ _ (by decide)
  · exact swciFalseHead 'n' '<' _ _ (by decide)
  · exact swciFalseHead 'k' '<' _ _ (by decide)
  · exact swciFalseHead '>' '<' _ _ (by decide)

theorem closeSpanFalse (x v : List Char) (h1 : 1 ≤ x.length) (h2 : x.length < 8) :
    startsWithCI closeThink (x ++ (openThink ++ v)) = false := by
  rw [startsWithCI_append_decomp]
  rw [closeDropHeadFalse x.length h1 (by omega) v]
  simp

theorem openDropHeadFalse (n : Nat) (h1 : 1 ≤ n) (h2 : n ≤ 6) (v : List Char) :
    startsWithCI (openThink.drop n) (openThink ++ v) = false := by
  interval_cases n
  · exact swciFalseHead 't' '<' _ _ (by decide)
  · exact swciFalseHead 'h' '<' _ _ (by decide)
  · exact swciFalseHead 'i' '<' _ _ (by decide)
  · exact swciFalseHead 'n' '<' _ _ (by decide)
  · exact swciFalseHead 'k' '<' _ _ (by decide)
  · exact swciFalseHead '>' '<' _ _ (by decide)

theorem openSpanFalse (x v : List Char) (h1 : 1 ≤ x.length) (h2 : x.length ≤ 6) :
    startsWithCI openThink (x ++ (openThink ++ v)) = false := by
  rw [startsWithCI_append_decomp]
  rw [openDropHeadFalse x.length h1 h2 v]
  simp

theorem findCloseSplit_open_append (v : List Char) (hv : findCloseSplit v = none) :
    findCloseSplit (openThink ++ v) = none := by
  have h0 : startsWithCI closeThink ('<' :: 't' :: 'h' :: 'i' :: 'n' :: 'k' :: '>' :: v) = false :=
    swciFalseSecond '<' '/' '<' 't' _ _ (by decide)
  have h1 : startsWithCI closeThink ('t' :: 'h' :: 'i' :: 'n' :: 'k' :: '>' :: v) = false :=
    swciFalseHead '<' 't' _ _ (by decide)
  have h2 : startsWithCI closeThink ('h' :: 'i' :: 'n' :: 'k' :: '>' :: v) = false :=
    swciFalseHead '<' 'h' _ _ (by decide)
  have h3 : startsWithCI closeThink ('i' :: 'n' :: 'k' :: '>' :: v) = false :=
    swciFalseHead '<' 'i' _ _ (by decide)
  have h4 : startsWithCI closeThink ('n' :: 'k' :: '>' :: v) = false :=
    swciFalseHead '<' 'n' _ _ (by decide)
  have h5 : startsWithCI closeThink ('k' :: '>' :: v) = false :=
    swciFalseHead '<' 'k' _ _ (by decide)
  have h6 : startsWithCI closeThink ('>' :: v) = false :=
    swciFalseHead '<' '>' _ _ (by decide)
  show findCloseSplit ('<' :: 't' :: 'h' :: 'i' :: 'n' :: 'k' :: '>' :: v) = none
  simp [findCloseSplit, h0, h1, h2, h3, h4, h5, h6, hv]

theorem findCloseSplit_append_factor : ∀ (x v : List Char), findCloseSplit v = none →
    findCloseSplit (x ++ (openThink ++ v)) =
      (findCloseSplit x).map (fun y => y ++ (openThink ++ v)) := by
  intro x
  induction x with
  | nil =>
    intro v hv
    show findCloseSplit (openThink ++ v) = none
    exact findCloseSplit_open_append v hv
  | cons c x' ih =>
    intro v hv
    show findCloseSplit (c :: (x' ++ (openThink ++ v))) = _
    by_cases hlen : 8 ≤ (c :: x').length
    · have hco : startsWithCI closeThink (c :: (x' ++ (openThink ++ v))) =
          startsWithCI closeThink (c :: x') :=
        startsWithCI_append_of_le closeThink (c :: x') (openThink ++ v) hlen
      simp only [findCloseSplit, hco]
      by_cases hsw : startsWithCI closeThink (c :: x') = true
      · rw [if_pos hsw, if_pos hsw]
        have h7 : 7 ≤ x'.length := by
          simp only [List.length_cons] at hlen
          omega
        have hdrop8 : (x' ++ (openThink ++ v)).drop 7 =
            x'.drop 7 ++ (openThink ++ v) := List.drop_append_of_le_length h7
        show some ((x' ++ (openThink ++ v)).drop 7) = some (x'.drop 7 ++ (openThink ++ v))
        rw [hdrop8]
      · rw [if_neg hsw, if_neg hsw]
        exact ih v hv
    · have hl8 : (c :: x').length < 8 := by omega
      have hspan : startsWithCI closeThink (c :: (x' ++ (openThink ++ v))) = false :=
        closeSpanFalse (c :: x') v (by simp) hl8
      have hlong : startsWithCI closeThink (c :: x') = false :=
        startsWithCI_long closeThink (c :: x') hl8
      simp only [findCloseSplit, hspan, hlong]
      simp only [Bool.false_eq_true, if_false]
      exact ih v hv

theorem stripThink_trailing : ∀ (f : Nat) (a u : List Char), findCloseSplit u = none →
    (a ++ (openThink ++ u)).length ≤ f →
    ∃ b, stripThinkF f (a ++ (openThink ++ u)) = b ++ (openThink ++ u) := by
  intro f
  induction f with
  | zero =>
    intro a u _ hlen
    exfalso
    simp [List.length_append, openThink] at hlen
  | succ f ih =>
    intro a u hu hlen
    match a with
    | [] =>
      refine ⟨[], ?_⟩
      show stripThinkF (f + 1) ('<' :: (['t', 'h', 'i', 'n', 'k', '>'] ++ u)) =
        [] ++ (openThink ++ u)
      have hopen : startsWithCI openThink ('<' :: (['t', 'h', 'i', 'n', 'k', '>'] ++ u)) =
          true := startsWithCI_self_append openThink u
      have hd7 : ('<' :: (['t', 'h', 'i', 'n', 'k', '>'] ++ u)).drop 7 = u := rfl
      simp only [stripThinkF, hopen, if_true, hd7, hu]
      rfl
    | c :: a' =>
      by_cases hsw : startsWithCI openThink (c :: (a' ++ (openThink ++ u))) = true
      · have h7 : 7 ≤ (c :: a').length := by
          by_contra hlt
          have h6 : (c :: a').length ≤ 6 := by
            simp only [List.length_cons] at hlt ⊢
            omega
          have hfalse : startsWithCI openThink (c :: (a' ++ (openThink ++ u))) = false :=
            openSpanFalse (c :: a') u (by simp) h6
          rw [hsw] at hfalse
          exact absurd hfalse (by simp)
        have h6' : 6 ≤ a'.length := by
          simp only [List.length_cons] at h7
          omega
        have hdrop : (a' ++ (openThink ++ u)).drop 6 =
            a'.drop 6 ++ (openThink ++ u) := List.drop_append_of_le_length h6'
        have hfac : findCloseSplit (a'.drop 6 ++ (openThink ++ u)) =
            (findCloseSplit (a'.drop 6)).map (fun y => y ++ (openThink ++ u)) :=
          findCloseSplit_append_factor (a'.drop 6) u hu
        show (∃ b, stripThinkF (f + 1) (c :: (a' ++ (openThink ++ u))) =
          b ++ (openThink ++ u))
        simp only [stripThinkF, hsw, if_true]
        have hd7 : (c :: (a' ++ (openThink ++ u))).drop 7 = a'.drop 6 ++ (openThink ++ u) := by
          show (a' ++ (openThink ++ u)).drop 6 = a'.drop 6 ++ (openThink ++ u)
          exact hdrop
        rw [hd7, hfac]
        cases hfc : findCloseSplit (a'.drop 6) with
        | none =>
          refine ⟨c :: a', ?_⟩
          rfl
        | some y =>
          have hylen : y.length + 8 ≤ (a'.drop 6).length :=
            findCloseSplit_some_length (a'.drop 6) y hfc
          have hlen2 : (y ++ (openThink ++ u)).length ≤ f := by
            simp only [List.length_append, List.length_drop, List.length_cons,
              List.length_drop] at hylen hlen ⊢
            simp only [openThink, List.length_cons, List.length_nil] at hlen ⊢
            omega
          obtain ⟨b', hb'⟩ := ih y u hu hlen2
          exact ⟨b', hb'⟩
      · show (∃ b, stripThinkF (f + 1) (c :: (a' ++ (openThink ++ u))) =
          b ++ (openThink ++ u))
        simp only [stripThinkF, hsw]
        simp only [Bool.false_eq_true, if_false]
        have hlen' : (a' ++ (openThink ++ u)).length ≤ f := by
          simp only [List.length_cons, List.length_append] at hlen ⊢
          omega
        obtain ⟨b', hb'⟩ := ih a' u hu hlen'
        exact ⟨c :: b', by rw [hb']; rfl⟩

theorem jsTrimRightOfRevHead (x w : List Char) (c : Char) (wr : List Char)
    (hw : w.reverse = c :: wr) (hc : isJsWs c = false) :
    jsTrimRight (x ++ w) = x ++ w := by
  unfold jsTrimRight
  have hrev : (x ++ w).reverse = c :: (wr ++ x.reverse) := by
    rw [List.reverse_append, hw]
    rfl
  rw [hrev, List.dropWhile_cons, if_neg (by simp [hc]), ← hrev, List.reverse_reverse]

theorem trimRightFragment (x u : List Char) (hu : jsTrimRight u = u) :
    jsTrimRight (x ++ (openThink ++ u)) = x ++ (openThink ++ u) := by
  cases hur : u.reverse with
  | nil =>
    have hu0 : u = [] := by
      have := congrArg List.reverse hur
      simpa using this
    subst hu0
    exact jsTrimRightOfRevHead x (openThink ++ []) '>' ['k', 'n', 'i', 'h', 't', '<']
      (by decide) (by decide)
  | cons c ur =>
    have hself : u.reverse.dropWhile isJsWs = u.reverse := by
      have hinj := congrArg List.reverse hu
      unfold jsTrimRight at hinj
      rw [List.reverse_reverse] at hinj
      exact hinj
    have hc : isJsWs c = false := by
      rw [hur, List.dropWhile_cons] at hself
      by_cases h : isJsWs c = true
      · rw [if_pos h] at hself
        exfalso
        have h1 : (ur.dropWhile isJsWs).length ≤ ur.length :=
          (List.dropWhile_sublist isJsWs).length_le
        have h2 := congrArg List.length hself
        simp at h2
        omega
      · simpa using h
    apply jsTrimRightOfRevHead x (openThink ++ u) c (ur ++ openThink.reverse)
    · rw [List.reverse_append, hur]
      rfl
    · exact hc

theorem dropWhileAppendOpen : ∀ (b v : List Char),
    (b ++ (openThink ++ v)).dropWhile isJsWs =
      b.dropWhile isJsWs ++ (openThink ++ v) := by
  intro b v
  induction b with
  | nil =>
    show (openThink ++ v).dropWhile isJsWs = [] ++ (openThink ++ v)
    rw [show openThink ++ v = '<' :: (['t', 'h', 'i', 'n', 'k', '>'] ++ v) from rfl]
    rw [List.dropWhile_cons, if_neg (by decide)]
    rfl
  | cons c b' ih =>
    show (c :: (b' ++ (openThink ++ v))).dropWhile isJsWs = _
    rw [List.dropWhile_cons, List.dropWhile_cons]
    by_cases hc : isJsWs c = true
    · rw [if_pos hc, if_pos hc]
      exact ih
    · rw [if_neg hc, if_neg hc]
      rfl

/-- C8 counterexample: `stripThinkBlocks` is not idempotent: on
`<th<think>a</think>ink>b</think>` one application removes the inner
complete block, splicing the surrounding text into the new complete block
`<think>b</think>`, which a second application removes entirely. -/
theorem strip_think_idem_counterexample :
    stripThinkBlocks "<th<think>a</think>ink>b</think>" = "<think>b</think>" ∧
    stripThinkBlocks (stripThinkBlocks "<th<think>a</think>ink>b</think>") ≠
      stripThinkBlocks "<th<think>a</think>ink>b</think>" := by
  constructor
  · decide
  · decide

/-- C8 amended: the meta-block filter is idempotent on every string whose
once-filtered form contains no complete think block left to remove (in
general a removal can splice surrounding text into a new complete block —
see the counterexample); and a trailing unterminated opening delimiter is
preserved: if no `</think>` occurs in the tail `<think> ++ u` and `u`
carries no trailing whitespace, the filter output still ends with
`<think> ++ u` verbatim. -/
theorem strip_think_amended :
    (∀ s : String, hasThinkL (stripThinkBlocks s).data = false →
        stripThinkBlocks (stripThinkBlocks s) = stripThinkBlocks s) ∧
    (∀ a u : List Char, findCloseSplit u = none → jsTrimRight u = u →
        ∃ b, (stripThinkBlocks (String.mk (a ++ (openThink ++ u)))).data =
          b ++ (openThink ++ u)) := by
  constructor
  · exact strip_think_conditional_idem
  · intro a u hu hut
    obtain ⟨b0, hb⟩ := stripThink_trailing (a ++ (openThink ++ u)).length a u hu
      (Nat.le_refl _)
    refine ⟨b0.dropWhile isJsWs, ?_⟩
    show jsTrimList (stripThinkF (a ++ (openThink ++ u)).length (a ++ (openThink ++ u))) =
      b0.dropWhile isJsWs ++ (openThink ++ u)
    rw [hb]
    unfold jsTrimList
    rw [dropWhileAppendOpen]
    exact trimRightFragment _ u hut

/-- Witness for C8 amended at concrete inputs: a string that filters to a
block-free residue, and a trailing fragment `<think>x` after text `z`. -/
theorem strip_think_amended_witness :
    stripThinkBlocks (stripThinkBlocks "a<think>y</think>b") =
      stripThinkBlocks "a<think>y</think>b" ∧
    ∃ b, (stripThinkBlocks (String.mk (['z'] ++ (openThink ++ ['x'])))).data =
      b ++ (openThink ++ ['x']) :=
  ⟨strip_think_amended.1 "a<think>y</think>b" (by decide),
   strip_think_amended.2 ['z'] ['x'] (by decide) (by decide)⟩
